import Mathlib

/-!
Verification of the isochrone table parser of the `padova` package
(`padova/isocdata.py`, `padova/basereader.py`).

The Python code is shallowly embedded: text streams become `List String`
(one entry per line, without the trailing newline), IEEE floats parsed
from decimal text become `ℚ`, numpy structured arrays become
`List (List ℚ)` together with an ordered dtype `List (String × NpType)`,
astropy tables become `PTable` (ordered column names plus rows of
optionally-masked cells), and Python exceptions become `Except PyErr`.
Mutation (the in-place join of isochrone sets, the iteration cursor) is
modelled by explicit state passing.
-/

namespace Padova

/-- The Python exceptions (and the spec's error taxonomy, for the modelled
prescanner) that the embedded code can raise. -/
inductive PyErr where
  | typeError
  | valueError
  | keyError
  | indexError
  | assertionError
  | stopIteration
  | mergeError
  | malformedTable
deriving DecidableEq, Repr

/-- Python `str.lstrip` with an explicit character: drops every leading
occurrence of that character. Used for the comment marker of header lines. -/
def lstripChar (c : Char) (s : String) : String :=
  (s.toList.dropWhile (fun x => x = c)).asString

/-- Drop the given characters from both ends of a character list. -/
def trimCharsBy (ws : Char → Bool) (cs : List Char) : List Char :=
  ((cs.dropWhile ws).reverse.dropWhile ws).reverse

/-- Python `str.strip()` (all whitespace, both ends). -/
def pyStrip (s : String) : String :=
  (trimCharsBy Char.isWhitespace s.toList).asString

/-- Split a character list at every occurrence of `sep`, keeping empty
pieces — the semantics of Python `str.split(sep)` with an explicit
separator. -/
def splitCharList (sep : Char) (cs : List Char) : List (List Char) :=
  cs.foldr
    (fun c acc =>
      match acc with
      | t :: ts => if c = sep then [] :: t :: ts else (c :: t) :: ts
      | [] => [[c]])
    [[]]

/-- Python single-character `str.replace`. -/
def replaceChar (a b : Char) (s : String) : String :=
  (s.toList.map (fun c => if c = a then b else c)).asString

/-- Python `str.split()` with no argument, after tabs have been replaced by
spaces: split on space runs, discarding empty tokens. -/
def pySplit (s : String) : List String :=
  ((splitCharList ' ' s.toList).map List.asString).filter (fun t => t ≠ "")

/-- Does the line start with the comment marker? -/
def startsHash (s : String) : Bool :=
  match s.toList with
  | c :: _ => c = '#'
  | [] => false

/-- Does the line start with a comment marker followed by a tab
(`line.startswith("#\t")`)? -/
def startsHashTab (s : String) : Bool :=
  match s.toList with
  | c1 :: c2 :: _ => c1 = '#' && c2 = '\t'
  | _ => false

/-- Digits to a natural number, most significant first. -/
def digitsToNat (ds : List Char) : ℕ :=
  ds.foldl (fun a c => 10 * a + (c.toNat - Char.toNat '0')) 0

/-- Read an optional sign character; `true` means negative. -/
def readSign : List Char → Bool × List Char
  | c :: r => if c = '-' then (true, r) else if c = '+' then (false, r) else (false, c :: r)
  | [] => (false, [])

/-- Model of Python `float(token)` on the decimal literals that occur in the
tables: optional sign, digits with an optional fractional part, optional
exponent. Returns `none` where Python raises `ValueError`. -/
def parseFloat? (s : String) : Option ℚ :=
  let cs := trimCharsBy Char.isWhitespace s.toList
  let sg := readSign cs
  let ipr := sg.2.span Char.isDigit
  let fpr : List Char × List Char :=
    match ipr.2 with
    | c :: r => if c = '.' then r.span Char.isDigit else ([], c :: r)
    | [] => ([], [])
  if ipr.1.isEmpty ∧ fpr.1.isEmpty then none
  else
    let mant : ℚ :=
      (digitsToNat ipr.1 : ℚ) + (digitsToNat fpr.1 : ℚ) / (10 : ℚ) ^ fpr.1.length
    let mant := if sg.1 then -mant else mant
    match fpr.2 with
    | [] => some mant
    | c :: r =>
      if c = 'e' ∨ c = 'E' then
        let esg := readSign r
        let edr := esg.2.span Char.isDigit
        if edr.1.isEmpty ∨ ¬ edr.2.isEmpty then none
        else if esg.1 then some (mant / (10 : ℚ) ^ digitsToNat edr.1)
        else some (mant * (10 : ℚ) ^ digitsToNat edr.1)
      else none

/-- Model of Python `int(token)`: optional sign and digits only. Returns
`none` where Python raises `ValueError`. -/
def parseInt? (s : String) : Option ℤ :=
  let cs := trimCharsBy Char.isWhitespace s.toList
  let sg := readSign cs
  let dr := sg.2.span Char.isDigit
  if dr.1.isEmpty ∨ ¬ dr.2.isEmpty then none
  else some (if sg.1 then -(digitsToNat dr.1 : ℤ) else (digitsToNat dr.1 : ℤ))

/-- `IsochroneSet._parse_colnames`: replace tabs by spaces and split on
whitespace. -/
def parse_colnames (header : String) : List String :=
  pySplit (replaceChar '\t' ' ' header)

/-- `l[::2]`: every other entry of a list, starting with the first. -/
def evenEntries : List String → List String
  | [] => []
  | [x] => [x]
  | x :: _ :: r => x :: evenEntries r

/-- `IsochroneSet._parse_meta`: replace tabs and `=` by spaces, split,
discard the first and last tokens, then read the remaining tokens as
alternating keys and float values (`float` raising `ValueError` on a
non-numeric value token is modelled by `.error .valueError`). -/
def parse_meta (header : String) : Except PyErr (List (String × ℚ)) :=
  let h := replaceChar '=' ' ' (replaceChar '\t' ' ' header)
  let parts := (pySplit h).drop 1 |>.dropLast
  let keys := evenEntries parts
  let valstrs := evenEntries (parts.drop 1)
  match valstrs.mapM parseFloat? with
  | some vals => .ok (keys.zip vals)
  | none => .error .valueError

/-- The numpy dtypes the reader assigns to columns (`np.int`, `np.float`;
`npStr` exists only to state the spec's claimed string typing, the code
never produces it). -/
inductive NpType where
  | npInt
  | npFloat
  | npStr
deriving DecidableEq, Repr

/-- The dtype list built in `IsochroneSet._read`: `stage` and `pmode`
columns become `np.int`, every other column `np.float`, in header order. -/
def make_dtype (colnames : List String) : List (String × NpType) :=
  colnames.map fun cname =>
    if cname = "stage" then (cname, NpType.npInt)
    else if cname = "pmode" then (cname, NpType.npInt)
    else (cname, NpType.npFloat)

/-! ## Bulk numeric loader: model of the `np.genfromtxt` call in
`IsochroneSet._read` (`delimiter='\t'`, `autostrip=True`, `comments='#'`,
`usecols=[1..N]`, explicit dtype). -/

/-- numpy `LineSplitter` on one raw line: cut at the comment marker, strip
spaces/CR/LF (not tabs), skip the line if nothing remains, else split on
tabs and strip each field (`autostrip`). -/
def keptFields (line : String) : Option (List String) :=
  let pre := line.toList.takeWhile (fun c => c ≠ '#')
  let t := trimCharsBy (fun c => c == ' ' || c == '\r' || c == '\n') pre
  if t.isEmpty then none
  else some ((splitCharList '\t' t).map (fun f => pyStrip f.asString))

/-- Convert one text field according to its numpy dtype. `npStr` never
arises from `make_dtype`. -/
def convertField : NpType → String → Option ℚ
  | NpType.npFloat, f => parseFloat? f
  | NpType.npInt, f => (parseInt? f).map (fun z => (z : ℚ))
  | NpType.npStr, _ => none

/-- The `np.genfromtxt(self._f, dtype=dt, delimiter='\t', autostrip=True,
comments='#', usecols=[1..N])` call of `IsochroneSet._read`: comment and
blank lines are dropped; a kept line must cover every used column index
(the schema maps to raw fields `1..N`, field `0` being the blank leading
tab), otherwise numpy records it as invalid and raises `ValueError`;
remaining fields are converted per dtype, conversion failures also raising
`ValueError`. -/
def genfromtxt (lines : List String) (dt : List (String × NpType)) :
    Except PyErr (List (List ℚ)) :=
  if (lines.filterMap keptFields).any (fun fs => fs.length < dt.length + 1) then
    .error .valueError
  else
    match (lines.filterMap keptFields).mapM (fun fs =>
        ((((List.range dt.length).map (fun i => i + 1)).map (fun i => fs.getD i "")).zip dt).mapM
          (fun p => convertField p.2.2 p.1)) with
    | some rows => .ok rows
    | none => .error .valueError

/-! ## Segment splitter: the discontinuity detection of
`IsochroneSet._read` (`np.diff`, tolerances, `np.where`, slicing). -/

/-- The fixed age tolerance `0.0001` of `IsochroneSet._read`. -/
def ageTol : ℚ := 0.0001

/-- The fixed metallicity tolerance `0.000001` of `IsochroneSet._read`. -/
def zTol : ℚ := 0.000001

/-- The elementwise condition `(age_diffs >= 0.0001) | (z_diffs >= 0.000001)`. -/
def boundaryB (da dz : ℚ) : Bool :=
  decide (ageTol ≤ da) || decide (zTol ≤ dz)

/-- `np.diff`: successive differences, `x[i+1] - x[i]`. -/
def np_diff : List ℚ → List ℚ
  | x :: y :: r => (y - x) :: np_diff (y :: r)
  | _ => []

/-- `np.where(cond)[0] + 1` over the elementwise boundary condition, with
`i` the index of the first pair: collects `i + 1` for every index `i`
at which the condition holds. -/
def changedAux (i : ℕ) : List (ℚ × ℚ) → List ℕ
  | [] => []
  | p :: rest =>
    if boundaryB p.1 p.2 then (i + 1) :: changedAux (i + 1) rest
    else changedAux (i + 1) rest

/-- The row indices at which `IsochroneSet._read` declares a new segment:
`changed = np.where((np.diff(age) >= 0.0001) | (np.diff(Z) >= 0.000001))[0] + 1`. -/
def changedIdxs (ages zs : List ℚ) : List ℕ :=
  changedAux 0 ((np_diff ages).zip (np_diff zs))

/-- `np.concatenate([[0], changed, [len(data) + 1]])`. -/
def segment_bounds (n : ℕ) (ch : List ℕ) : List ℕ :=
  [0] ++ ch ++ [n + 1]

/-- The row slices `data[idx0:idx1]` taken for consecutive bound pairs in
`IsochroneSet._read`. -/
def slicesOf (rows : List α) (bounds : List ℕ) : List (List α) :=
  (bounds.zip bounds.tail).map (fun p => (rows.take p.2).drop p.1)

/-! ## Table prescanner.

`IsochroneSet._read` calls `self._prescan_table(2)` and unpacks
`(header_lines, blocks, n_lines)`, each block carrying `header_lines`;
`IsochroneRequest.isochrone_set` passes a `StringIO` handle straight to
`IsochroneSet`. The `BaseReader` present in `src/padova/basereader.py` is
an older variant of the class — its `__init__` wants a file *name* and its
`_prescan_table` takes no header-depth argument and returns only the
start-line indices — so the prescanner those callers rely on is modelled
here from the spec. The older variant is embedded as
`prescan_table_legacy` below. -/

/-- A structural segment found by the prescanner: its data start line, end
line, and the per-segment header lines. -/
structure Segment where
  start_line : ℕ
  end_line : ℕ
  header_lines : List String
deriving DecidableEq, Repr

/-- The triple returned by the modelled `_prescan_table`. -/
structure PrescanResult where
  header_lines : List String
  blocks : List Segment
  n_lines : ℕ
deriving DecidableEq, Repr

/-- Walk state of the modelled prescanner. -/
structure PrescanState where
  buffer : List String
  globals : List String
  blocks : List Segment
  openSeg : Option (ℕ × List String)
deriving DecidableEq, Repr

/-- Close the open segment, if any, with the given end line. -/
def closeSeg (st : PrescanState) (endLine : ℕ) : PrescanState :=
  match st.openSeg with
  | some p => { st with blocks := st.blocks ++ [⟨p.1, endLine, p.2⟩], openSeg := none }
  | none => st

/-- One step of the modelled prescanner on line `i`. -/
def prescanStep (d : ℕ) (i : ℕ) (line : String) (st : PrescanState) :
    Except PyErr PrescanState :=
  if startsHash line then
    let st := closeSeg st (i - 1)
    .ok { st with buffer := st.buffer ++ [lstripChar '#' line] }
  else
    match st.openSeg with
    | some _ => .ok st
    | none =>
      if st.buffer.length < d then .error .malformedTable
      else
        .ok { buffer := [],
              globals := st.globals ++ st.buffer.take (st.buffer.length - d),
              blocks := st.blocks,
              openSeg := some (i, st.buffer.drop (st.buffer.length - d)) }

/-- Fold the prescanner over the remaining lines, `i` being the index of
the first of them. -/
def prescanGo (d : ℕ) : ℕ → List String → PrescanState → Except PyErr PrescanState
  | _, [], st => .ok st
  | i, l :: rest, st => do
    let st1 ← prescanStep d i l st
    prescanGo d (i + 1) rest st1

/-- Modelled from the spec: `BaseReader._prescan_table(d)` — the
file-handle-based prescanner that `IsochroneSet._read` unpacks as
`(header_lines, blocks, n_lines)` is missing from `src`
(`src/padova/basereader.py` holds the older filename-based variant whose
`_prescan_table` takes no depth argument). Per spec section 4.1: walk the
lines once keeping a pending buffer of comment lines; on a data line with
no open segment, open one whose `header_lines` are the last `d` buffered
lines, draining the rest of the buffer into the global header accumulator;
a comment line closes the open segment at the previous index; the final
segment ends at the last line. A buffer shorter than `d` at a segment
start, or an empty segment list, is a malformed table. Header lines are
recorded with the leading comment markers stripped, as the legacy
`BaseReader._read_metadata` does, so that `_parse_colnames` and
`_parse_meta` see the token streams they expect. -/
def prescan_table (lines : List String) (d : ℕ) : Except PyErr PrescanResult :=
  match prescanGo d 0 lines ⟨[], [], [], none⟩ with
  | .error e => .error e
  | .ok st =>
    if (closeSeg st (lines.length - 1)).blocks.isEmpty then .error .malformedTable
    else .ok ⟨(closeSeg st (lines.length - 1)).globals,
              (closeSeg st (lines.length - 1)).blocks, lines.length⟩

/-- The `_prescan_table` actually present in `src/padova/basereader.py`
(lines 40-47): collect the indices of lines that start with a comment
marker followed by a tab. -/
def prescan_table_legacy (lines : List String) : List ℕ :=
  prescanLegacyGo 0 lines
where
  prescanLegacyGo : ℕ → List String → List ℕ
    | _, [] => []
    | i, l :: rest =>
      if startsHashTab l then i :: prescanLegacyGo (i + 1) rest
      else prescanLegacyGo (i + 1) rest

/-! ## The read pipeline `IsochroneSet._read`. -/

/-- One parsed isochrone: the typed rows of its segment, the metadata from
its segment header, and the shared global header. -/
structure Isoc where
  colnames : List String
  rows : List (List ℚ)
  meta : List (String × ℚ)
  header : List String
deriving DecidableEq, Repr

/-- Field access `data[name]` on the structured array: the named column,
or `KeyError` if the dtype has no such field. -/
def column (dt : List (String × NpType)) (data : List (List ℚ)) (name : String) :
    Except PyErr (List ℚ) :=
  match dt.findIdx? (fun p => p.1 = name) with
  | some i => .ok (data.map (fun r => r.getD i 0))
  | none => .error .keyError

/-- The first half of `IsochroneSet._read`, up to the two column reads:
prescan with header depth 2, resolve the column schema from the last
header line of the first block, bulk-load the stream, and read the
`logageyr` and `Z` columns. -/
def readPrep (lines : List String) :
    Except PyErr (PrescanResult × List (String × NpType) × List (List ℚ) × List ℚ × List ℚ) :=
  match prescan_table lines 2 with
  | .error e => .error e
  | .ok pres =>
    match pres.blocks.head? with
    | none => .error .indexError
    | some b0 =>
      match b0.header_lines.getLast? with
      | none => .error .indexError
      | some lastHeader =>
        match genfromtxt lines (make_dtype (parse_colnames lastHeader)) with
        | .error e => .error e
        | .ok data =>
          match column (make_dtype (parse_colnames lastHeader)) data "logageyr" with
          | .error e => .error e
          | .ok ages =>
            match column (make_dtype (parse_colnames lastHeader)) data "Z" with
            | .error e => .error e
            | .ok zs => .ok (pres, make_dtype (parse_colnames lastHeader), data, ages, zs)

/-- The rest of `IsochroneSet._read`: detect content boundaries, assert
that their count plus one equals the prescanned block count (a failing
`assert` aborts the parse with `AssertionError` and no isochrones), then
slice the bulk data at the bounds and attach to each slice the metadata
parsed from its block's first header line and the global header. -/
def isocSet_read (lines : List String) : Except PyErr (List String × List Isoc) :=
  match readPrep lines with
  | .error e => .error e
  | .ok (pres, dt, data, _ages, _zs) =>
    if (changedIdxs _ages _zs).length + 1 = pres.blocks.length then
      match ((slicesOf data (segment_bounds data.length (changedIdxs _ages _zs))).zip
          pres.blocks).mapM (fun p =>
          (parse_meta (p.2.header_lines.getD 0 "")).map
            (fun m => Isoc.mk (dt.map Prod.fst) p.1 m pres.header_lines)) with
      | .ok isocs => .ok (pres.header_lines, isocs)
      | .error e => .error e
    else .error .assertionError

/-! ## Isochrone tables and the joiners (`join_isochrones`,
`join_isochrone_sets`).

An astropy table is modelled as its ordered column names plus rows of
cells; a cell is `Option ℚ`, `none` standing for a masked entry (produced
for unmatched rows of a left join). `Isochrone(t)` copies its input
table, so the joiners' table surgery acts on value copies; the in-place
update of the left set's `_isochrones` list is modelled by returning the
final states of both lists. -/

/-- A masked cell (`none`) or a value. -/
abbrev Cell := Option ℚ

/-- Model of an astropy `Table` / `Isochrone`: ordered column names and
rows of cells (each row aligned with `cols`). -/
structure PTable where
  cols : List String
  rows : List (List Cell)
deriving DecidableEq, Repr

/-- The fixed exclusion list of `Isochrone.non_mag_names`. -/
def possible_non_mag : List String :=
  ["log(age/yr)", "M_ini", "M_act", "logL/Lo", "logTe",
   "logG", "mbol", "C/O", "M_hec", "period", "pmode",
   "logMdot",
   "int_IMF", "stage",
   "Z", "logageyr", "logLLo"]

/-- `Isochrone.non_mag_names`: the members of the exclusion list present
among the table's columns. -/
def non_mag_names (t : PTable) : List String :=
  possible_non_mag.filter (fun n => n ∈ t.cols)

/-- `Isochrone.filter_names`: the column names that are not known
non-photometric names, in column order. -/
def filter_names (t : PTable) : List String :=
  t.cols.filter (fun name => name ∉ non_mag_names t)

/-- astropy `Table.remove_columns`: drop the named columns (the call sites
pass subsets of the existing columns). -/
def remove_columns (t : PTable) (names : List String) : PTable :=
  ⟨t.cols.filter (fun c => c ∉ names),
   t.rows.map (fun r => ((t.cols.zip r).filter (fun p => p.1 ∉ names)).map Prod.snd)⟩

/-- astropy `Table.keep_columns`: raises `KeyError` when a requested name
is not a column, else keeps exactly the named columns in original table
order. -/
def keep_columns (t : PTable) (names : List String) : Except PyErr PTable :=
  if names.all (fun n => n ∈ t.cols) then
    .ok ⟨t.cols.filter (fun c => c ∈ names),
         t.rows.map (fun r => ((t.cols.zip r).filter (fun p => p.1 ∈ names)).map Prod.snd)⟩
  else .error .keyError

/-- Key ordering for the join's output sort; masked keys sort as `0`
(keys are unmasked in every use here). -/
def cellVal (c : Cell) : ℚ := c.getD 0

/-- Stable insertion of a row into rows sorted ascending by the key
column `i`. -/
def insertRow (i : ℕ) (r : List Cell) : List (List Cell) → List (List Cell)
  | [] => [r]
  | s :: ss =>
    if cellVal (r.getD i none) < cellVal (s.getD i none) then r :: s :: ss
    else s :: insertRow i r ss

/-- Stable sort of rows by the key column `i`, ascending (astropy's join
returns its output sorted by the key). -/
def sortByKey (i : ℕ) (rs : List (List Cell)) : List (List Cell) :=
  rs.foldl (fun acc r => insertRow i r acc) []

/-- astropy `join(t_left, t_right, join_type='left', keys=key)`: fails
when either table lacks the key column; otherwise, for each left row in
key order, emit one output row per matching right row (key first, then
the remaining left columns, then the remaining right columns), or a
single row with masked right cells when nothing matches. -/
def astropy_join_left (tl tr : PTable) (key : String) : Except PyErr PTable :=
  match tl.cols.findIdx? (fun c => c = key), tr.cols.findIdx? (fun c => c = key) with
  | some li, some ri =>
    let rowsJ := (sortByKey li tl.rows).flatMap (fun lr =>
      let k := lr.getD li none
      let ms := tr.rows.filter (fun rr => rr.getD ri none = k)
      if ms.isEmpty then
        [k :: (lr.eraseIdx li ++ List.replicate (tr.cols.length - 1) none)]
      else ms.map (fun rr => k :: (lr.eraseIdx li ++ rr.eraseIdx ri)))
    .ok ⟨key :: (tl.cols.eraseIdx li ++ tr.cols.eraseIdx ri), rowsJ⟩
  | _, _ => .error .mergeError

/-- Python `[b for b in l if b in ob]` where `ob` may be `None`: the
membership test `b in None` raises `TypeError`, but only if the
comprehension evaluates it at least once. -/
def pyFilterIn (l : List String) (ob : Option (List String)) :
    Except PyErr (List String) :=
  match l, ob with
  | [], _ => .ok []
  | _, some b => .ok (l.filter (fun x => x ∈ b))
  | _ :: _, none => .error .typeError

/-- Python `l + ob` where `ob` may be `None`: list concatenation, raising
`TypeError` on `None`. -/
def pyListConcat (l : List String) (ob : Option (List String)) :
    Except PyErr (List String) :=
  match ob with
  | some b => .ok (l ++ b)
  | none => .error .typeError

/-- `join_isochrones(left_isoc, right_isoc, right_bands, left_bands)`:
copy both tables; when `right_bands` is `None`, overwrite `left_bands`
with the left filter names; when `left_bands` is set, remove from the
left copy its filter columns outside `left_bands`; remove from the left
copy the filter columns that appear in `right_bands` (a membership test
against `None` when `right_bands` was not given); trim the right copy to
`['M_ini'] + right_bands`; left-join on `M_ini`. -/
def join_isochrones (left_isoc right_isoc : PTable)
    (right_bands left_bands : Option (List String)) : Except PyErr PTable := do
  let t_left := left_isoc
  let t_right := right_isoc
  let left_bands := if right_bands.isNone then some (filter_names t_left) else left_bands
  let t_left := match left_bands with
    | some lb => remove_columns t_left ((filter_names t_left).filter (fun b => b ∉ lb))
    | none => t_left
  let left_bands2 := filter_names t_left
  let removed_bands ← pyFilterIn left_bands2 right_bands
  let t_left := remove_columns t_left removed_bands
  let keepNames ← pyListConcat ["M_ini"] right_bands
  let t_right ← keep_columns t_right keepNames
  astropy_join_left t_left t_right "M_ini"

/-- Final states after `join_isochrone_sets`: the left set's isochrone
list (whose entries were assigned in place), the right set's list (never
written), and the value the function returns (the left set itself). -/
structure JoinSetsResult where
  left_final : List PTable
  right_final : List PTable
  returned : List PTable
deriving DecidableEq, Repr

/-- The loop of `join_isochrone_sets`: for each zipped pair, join and
assign the result into slot `i` of the left list. -/
def joinSetsGo (rb lb : Option (List String)) :
    ℕ → List PTable → List (PTable × PTable) → Except PyErr (List PTable)
  | _, acc, [] => .ok acc
  | i, acc, p :: rest => do
    let t ← join_isochrones p.1 p.2 rb lb
    joinSetsGo rb lb (i + 1) (acc.set i t) rest

/-- `join_isochrone_sets(left_set, right_set, right_bands, left_bands)`:
iterate `enumerate(zip(left, right))` (zip truncates to the shorter
list), replacing `left_set._isochrones[i]` by the joined table, and
return `left_set`. The right set is only ever read. -/
def join_isochrone_sets (left_set right_set : List PTable)
    (right_bands left_bands : Option (List String)) : Except PyErr JoinSetsResult := do
  let fin ← joinSetsGo right_bands left_bands 0 left_set (left_set.zip right_set)
  .ok ⟨fin, right_set, fin⟩

/-! ## IsochroneSet iteration (`__iter__` / `next`). -/

/-- The iteration-relevant state of an `IsochroneSet`: its isochrone list
and the `_current` cursor. -/
structure IsocSetIter where
  isochrones : List PTable
  current : ℕ
deriving DecidableEq, Repr

/-- `IsochroneSet.next`: return the isochrone at `_current` and advance;
on `IndexError`, reset `_current` to `0` and raise `StopIteration`. -/
def isocSetNext (s : IsocSetIter) : Except PyErr PTable × IsocSetIter :=
  match s.isochrones.get? s.current with
  | some isoc => (.ok isoc, { s with current := s.current + 1 })
  | none => (.error .stopIteration, { s with current := 0 })

/-- Call `next` `k` times, collecting the yielded isochrones until the
first error. -/
def isocSetWalk : IsocSetIter → ℕ → List PTable × IsocSetIter
  | s, 0 => ([], s)
  | s, k + 1 =>
    match isocSetNext s with
    | (.ok t, s1) =>
      let w := isocSetWalk s1 k
      (t :: w.1, w.2)
    | (.error _, s1) => ([], s1)

/-! ## Concrete inputs used by the witnesses and counterexamples. -/

/-- A small well-formed isochrone file: two global header lines, then two
segments, each with its two-line header (metadata line, column line) and
tab-delimited data rows with the blank leading field. -/
def exampleLines : List String :=
  [ "# Padova isochrones",
    "# CMD settings echo",
    "#\tIsochrone  Z = 0.012  age = 1000000.0 yr",
    "# Z\tlogageyr\tM_ini\tJ",
    "\t0.012\t6.0\t1.0\t20.0",
    "\t0.012\t6.0\t2.0\t19.5",
    "\t0.012\t6.0\t3.0\t19.0",
    "#\tIsochrone  Z = 0.012  age = 1258925.0 yr",
    "# Z\tlogageyr\tM_ini\tJ",
    "\t0.012\t6.1\t1.0\t20.1",
    "\t0.012\t6.1\t2.0\t19.6" ]

/-- Like `exampleLines` but the second structural segment repeats the age
and metallicity of the first, so content-driven detection finds one
segment where the prescan finds two. -/
def mismatchLines : List String :=
  [ "# Padova isochrones",
    "# CMD settings echo",
    "#\tIsochrone  Z = 0.012  age = 1000000.0 yr",
    "# Z\tlogageyr\tM_ini\tJ",
    "\t0.012\t6.0\t1.0\t20.0",
    "\t0.012\t6.0\t2.0\t19.5",
    "#\tIsochrone  Z = 0.012  age = 1000000.0 yr",
    "# Z\tlogageyr\tM_ini\tJ",
    "\t0.012\t6.0\t1.0\t20.1",
    "\t0.012\t6.0\t2.0\t19.6" ]

/-- The dtype of the example files' four columns. -/
def dtExample : List (String × NpType) :=
  make_dtype ["Z", "logageyr", "M_ini", "J"]

/-- A data line with one field fewer than the schema: the trailing `J`
value is missing. -/
def shortLine : String := "\t0.012\t6.0\t1.0"

/-- A two-row data region whose second line is `shortLine`. -/
def shortLines : List String :=
  [ "\t0.012\t6.0\t1.0\t20.0", shortLine ]

/-- Left isochrone with filter columns `J`, `H`, `Ks` (one row). -/
def tLeftJHK : PTable :=
  ⟨["M_ini", "J", "H", "Ks"], [[some 1, some 20, some 19, some 18]]⟩

/-- Right isochrone with filter columns `U`, `B`, `V` (one row). -/
def tRightUBV : PTable :=
  ⟨["M_ini", "U", "B", "V"], [[some 1, some 10, some 9, some 8]]⟩

/-- Two-row left isochrone with one filter column for the join witnesses. -/
def tLw : PTable := ⟨["M_ini", "J"], [[some 1, some 20], [some 2, some 19]]⟩

/-- Two-row right isochrone with one filter column for the join witnesses. -/
def tRw : PTable := ⟨["M_ini", "U"], [[some 1, some 10], [some 2, some 9]]⟩

/-- A table without the `M_ini` key column. -/
def tNoKey : PTable := ⟨["U"], [[some 1]]⟩

/-! ## Derived predicates used to state the cross-check and witness
facts. -/

/-- Structural last-with-default (Python `l[-1]` with a fallback). -/
def lastD {α : Type _} : List α → α → α
  | [], d => d
  | x :: r, _ => lastD r x

/-- The boundary condition on two consecutive (age, metallicity) rows. -/
def boundaryPairB (p q : ℚ × ℚ) : Bool :=
  boundaryB (q.1 - p.1) (q.2 - p.2)

/-- Number of consecutive-row pairs on which the boundary condition holds. -/
def nBounds : List (ℚ × ℚ) → ℕ
  | p :: q :: r => (if boundaryPairB p q then 1 else 0) + nBounds (q :: r)
  | _ => 0

/-- No consecutive pair inside the group meets a tolerance. -/
def noInnerBoundaryB : List (ℚ × ℚ) → Bool
  | p :: q :: r => !boundaryPairB p q && noInnerBoundaryB (q :: r)
  | _ => true

/-- Every junction between consecutive groups meets a tolerance. -/
def junctionsOkB : List (List (ℚ × ℚ)) → Bool
  | g :: g2 :: r => boundaryPairB (lastD g (0, 0)) (g2.headD (0, 0)) && junctionsOkB (g2 :: r)
  | _ => true

/-- Well-formedness of the bulk-loaded content relative to a structural
segment count `k`: the (age, metallicity) rows split into `k` nonempty
contiguous groups, each content-homogeneous (no successive pair inside a
group meets a tolerance) while every junction between consecutive groups
does meet one. -/
def WellFormedSplit (ages zs : List ℚ) (k : ℕ) : Prop :=
  ∃ groups : List (List (ℚ × ℚ)),
    groups.length = k ∧
    (∀ g ∈ groups, g ≠ []) ∧
    groups.flatten = ages.zip zs ∧
    (∀ g ∈ groups, noInnerBoundaryB g = true) ∧
    junctionsOkB groups = true

/-! ## List facts used by the proofs. -/

theorem getq_set_self {α : Type _} : ∀ (l : List α) (i : ℕ) (a : α), i < l.length →
    (l.set i a).get? i = some a
  | _ :: _, 0, _, _ => rfl
  | _ :: xs, i + 1, a, h => getq_set_self xs i a (Nat.lt_of_succ_lt_succ h)
  | [], i, a, h => absurd h (by simp)

theorem getq_set_other {α : Type _} : ∀ (l : List α) (i j : ℕ) (a : α), i ≠ j →
    (l.set i a).get? j = l.get? j
  | [], _, _, _, _ => by simp
  | _ :: _, 0, 0, _, h => absurd rfl h
  | _ :: _, 0, _ + 1, _, _ => rfl
  | _ :: _, _ + 1, 0, _, _ => rfl
  | _ :: xs, i + 1, j + 1, a, h => by
    simpa [List.get?_cons_succ] using getq_set_other xs i j a (fun hij => h (by rw [hij]))

theorem zip_getq_some {α β : Type _} : ∀ (l1 : List α) (l2 : List β) (j : ℕ) (a : α) (b : β),
    l1.get? j = some a → l2.get? j = some b → (l1.zip l2).get? j = some (a, b)
  | x :: _, y :: _, 0, _, _, h1, h2 => by
    simp only [List.get?_cons_zero, Option.some.injEq] at h1 h2
    simp [List.zip_cons_cons, h1, h2]
  | x :: xs, y :: ys, j + 1, a, b, h1, h2 => by
    simpa [List.zip_cons_cons] using zip_getq_some xs ys j a b h1 h2
  | [], _, _, _, _, h1, _ => by simp at h1
  | _ :: _, [], _, _, _, _, h2 => by simp at h2

theorem findIdxq_eq_none {α : Type _} (p : α → Bool) :
    ∀ (l : List α) (i : ℕ), (∀ x ∈ l, p x = false) → l.findIdx? p i = none := by
  intro l
  induction l with
  | nil => intro _ _; rfl
  | cons x xs ih =>
    intro i h
    rw [List.findIdx?_cons, h x (by simp)]
    simpa using ih (i + 1) (fun y hy => h y (by simp [hy]))

theorem drop_take_append_drop {α : Type _} (l : List α) (a b : ℕ) (hab : a ≤ b) :
    (l.take b).drop a ++ l.drop b = l.drop a := by
  by_cases hl : a ≤ l.length
  · have h1 : a ≤ (l.take b).length := by
      simp only [List.length_take]
      exact le_min hab hl
    calc (l.take b).drop a ++ l.drop b
        = (l.take b ++ l.drop b).drop a := (List.drop_append_of_le_length h1).symm
      _ = l.drop a := by rw [List.take_append_drop]
  · push_neg at hl
    have hb : l.length ≤ b := le_trans (le_of_lt hl) hab
    rw [List.take_of_length_le hb, List.drop_eq_nil_of_le hb,
      List.drop_eq_nil_of_le (le_of_lt hl), List.append_nil]

theorem lastD_append_singleton {α : Type _} : ∀ (l : List α) (b d : α),
    lastD (l ++ [b]) d = b
  | [], _, _ => rfl
  | x :: r, b, d => by
    simpa using lastD_append_singleton r b x

/-! ## Splitter lemmas. -/

theorem slicesOf_nil {α : Type _} (rows : List α) : slicesOf rows [] = [] := rfl

theorem slicesOf_single {α : Type _} (rows : List α) (a : ℕ) : slicesOf rows [a] = [] := rfl

theorem slicesOf_cons_cons {α : Type _} (rows : List α) (a b : ℕ) (bs : List ℕ) :
    slicesOf rows (a :: b :: bs) = ((rows.take b).drop a) :: slicesOf rows (b :: bs) := rfl

theorem slicesOf_join {α : Type _} : ∀ (bs : List ℕ) (a : ℕ) (rows : List α),
    List.Chain (· ≤ ·) a bs → rows.length ≤ lastD bs a →
    (slicesOf rows (a :: bs)).flatten = rows.drop a := by
  intro bs
  induction bs with
  | nil =>
    intro a rows _ hlast
    rw [slicesOf_single, List.flatten_nil]
    exact (List.drop_eq_nil_of_le (by simpa [lastD] using hlast)).symm
  | cons b bs ih =>
    intro a rows hchain hlast
    rw [List.chain_cons] at hchain
    rw [slicesOf_cons_cons, List.flatten_cons,
      ih b rows hchain.2 hlast,
      drop_take_append_drop rows a b hchain.1]

theorem chain_le_of_sorted_lt : ∀ (ch : List ℕ) (a m : ℕ),
    List.Chain' (· < ·) (a :: ch) → (∀ k ∈ a :: ch, k < m) →
    List.Chain (· ≤ ·) a (ch ++ [m]) := by
  intro ch
  induction ch with
  | nil =>
    intro a m _ hm
    exact List.Chain.cons (le_of_lt (hm a (by simp))) List.Chain.nil
  | cons c ch ih =>
    intro a m hchain hm
    rw [List.chain'_cons] at hchain
    exact List.Chain.cons (le_of_lt hchain.1)
      (ih c m hchain.2 (fun k hk => hm k (by simpa using Or.inr hk)))

theorem changedAux_gt : ∀ (l : List (ℚ × ℚ)) (i : ℕ), ∀ k ∈ changedAux i l, i < k := by
  intro l
  induction l with
  | nil => intro i k hk; simp [changedAux] at hk
  | cons p rest ih =>
    intro i k hk
    by_cases hb : boundaryB p.1 p.2
    · rw [changedAux, if_pos hb] at hk
      rcases List.mem_cons.1 hk with h | h
      · omega
      · have := ih (i + 1) k h; omega
    · rw [changedAux, if_neg hb] at hk
      have := ih (i + 1) k hk
      omega

theorem changedAux_sorted : ∀ (l : List (ℚ × ℚ)) (i : ℕ),
    List.Chain' (· < ·) (changedAux i l) := by
  intro l
  induction l with
  | nil => intro i; exact List.chain'_nil
  | cons p rest ih =>
    intro i
    by_cases hb : boundaryB p.1 p.2
    · rw [changedAux, if_pos hb]
      refine List.chain'_cons'.2 ⟨?_, ih (i + 1)⟩
      intro y hy
      exact changedAux_gt rest (i + 1) y (List.mem_of_mem_head? hy)
    · rw [changedAux, if_neg hb]
      exact ih (i + 1)

theorem changedAux_le : ∀ (l : List (ℚ × ℚ)) (i : ℕ), ∀ k ∈ changedAux i l, k ≤ i + l.length := by
  intro l
  induction l with
  | nil => intro i k hk; simp [changedAux] at hk
  | cons p rest ih =>
    intro i k hk
    have hlen : (p :: rest).length = rest.length + 1 := rfl
    by_cases hb : boundaryB p.1 p.2
    · rw [changedAux, if_pos hb] at hk
      rcases List.mem_cons.1 hk with h | h
      · rw [hlen]; omega
      · have := ih (i + 1) k h; rw [hlen]; omega
    · rw [changedAux, if_neg hb] at hk
      have := ih (i + 1) k hk
      rw [hlen]; omega

theorem changedAux_mem : ∀ (l : List (ℚ × ℚ)) (i k : ℕ),
    k ∈ changedAux i l ↔ ∃ j p, l.get? j = some p ∧ boundaryB p.1 p.2 = true ∧ k = i + j + 1 := by
  intro l
  induction l with
  | nil =>
    intro i k
    simp [changedAux]
  | cons p rest ih =>
    intro i k
    constructor
    · intro hk
      by_cases hb : boundaryB p.1 p.2
      · rw [changedAux, if_pos hb] at hk
        rcases List.mem_cons.1 hk with h | h
        · exact ⟨0, p, rfl, hb, by omega⟩
        · obtain ⟨j, q, hq, hbq, hkq⟩ := (ih (i + 1) k).1 h
          exact ⟨j + 1, q, by simpa using hq, hbq, by omega⟩
      · rw [changedAux, if_neg hb] at hk
        obtain ⟨j, q, hq, hbq, hkq⟩ := (ih (i + 1) k).1 hk
        exact ⟨j + 1, q, by simpa using hq, hbq, by omega⟩
    · rintro ⟨j, q, hq, hbq, hkq⟩
      match j, hq with
      | 0, hq =>
        simp only [List.get?_cons_zero, Option.some.injEq] at hq
        subst hq
        rw [changedAux, if_pos hbq]
        exact List.mem_cons.2 (Or.inl (by omega))
      | j + 1, hq =>
        simp only [List.get?_cons_succ] at hq
        have hmem := (ih (i + 1) k).2 ⟨j, q, hq, hbq, by omega⟩
        by_cases hb : boundaryB p.1 p.2
        · rw [changedAux, if_pos hb]
          exact List.mem_cons.2 (Or.inr hmem)
        · rw [changedAux, if_neg hb]
          exact hmem

theorem np_diff_length : ∀ (xs : List ℚ), (np_diff xs).length = xs.length - 1
  | [] => rfl
  | [_] => rfl
  | x :: y :: r => by
    rw [np_diff]
    have := np_diff_length (y :: r)
    simp at this ⊢
    omega

theorem np_diff_getq : ∀ (xs : List ℚ) (j : ℕ), j + 1 < xs.length →
    (np_diff xs).get? j = some (xs.getD (j + 1) 0 - xs.getD j 0) := by
  intro xs
  induction xs with
  | nil => intro j h; simp at h
  | cons x xs ih =>
    intro j h
    match xs, j with
    | [], _ => simp at h
    | y :: r, 0 => rw [np_diff]; simp [List.getD]
    | y :: r, j + 1 =>
      rw [np_diff]
      have hj : j + 1 < (y :: r).length := by simpa using h
      simpa [List.getD] using ih j hj

theorem zip_getq_inv {α β : Type _} : ∀ (l1 : List α) (l2 : List β) (j : ℕ) (p : α × β),
    (l1.zip l2).get? j = some p → l1.get? j = some p.1 ∧ l2.get? j = some p.2
  | x :: _, y :: _, 0, p, h => by
    simp only [List.zip_cons_cons, List.get?_cons_zero, Option.some.injEq] at h
    simp [← h]
  | x :: xs, y :: ys, j + 1, p, h => by
    simpa [List.zip_cons_cons] using zip_getq_inv xs ys j p (by simpa [List.zip_cons_cons] using h)
  | [], _, _, _, h => by simp [List.zip] at h
  | _ :: _, [], _, _, h => by simp [List.zip] at h

theorem getq_some_lt_length {α : Type _} (l : List α) (n : ℕ) (a : α)
    (h : l.get? n = some a) : n < l.length := by
  by_contra hn
  rw [List.get?_eq_none.2 (Nat.le_of_not_lt hn)] at h
  exact Option.noConfusion h

/-- C7: for every bulk-loaded table, the content-driven splitter declares
a boundary between rows `i` and `i+1` exactly when the age delta reaches
the fixed tolerance `0.0001` or the metallicity delta reaches the fixed
tolerance `0.000001` (the code's `>=` comparisons on the successive
differences); every declared boundary lies strictly inside the row range,
the boundaries are strictly increasing, and slicing the rows at
`[0] ++ boundaries ++ [n+1]` partitions the table into contiguous
segments whose concatenation is the original row list. -/
theorem changed_boundaries_spec (ages zs : List ℚ) (rows : List (List ℚ))
    (hlen : zs.length = ages.length) (hrows : rows.length = ages.length) :
    (∀ i : ℕ, i + 1 ∈ changedIdxs ages zs ↔
        (i + 1 < ages.length ∧
          (ageTol ≤ ages.getD (i + 1) 0 - ages.getD i 0 ∨
           zTol ≤ zs.getD (i + 1) 0 - zs.getD i 0))) ∧
    (∀ k ∈ changedIdxs ages zs, 1 ≤ k ∧ k < ages.length) ∧
    List.Chain' (· < ·) (changedIdxs ages zs) ∧
    (slicesOf rows (segment_bounds rows.length (changedIdxs ages zs))).flatten = rows := by
  have hmem : ∀ k, k ∈ changedIdxs ages zs ↔
      ∃ j p, ((np_diff ages).zip (np_diff zs)).get? j = some p ∧
        boundaryB p.1 p.2 = true ∧ k = j + 1 := by
    intro k
    rw [changedIdxs, changedAux_mem]
    constructor
    · rintro ⟨j, p, h1, h2, h3⟩; exact ⟨j, p, h1, h2, by omega⟩
    · rintro ⟨j, p, h1, h2, h3⟩; exact ⟨j, p, h1, h2, by omega⟩
  have hbounds : ∀ k ∈ changedIdxs ages zs, 1 ≤ k ∧ k < ages.length := by
    intro k hk
    obtain ⟨j, p, h1, _, h3⟩ := (hmem k).1 hk
    have hj := getq_some_lt_length _ _ _ h1
    rw [List.length_zip, np_diff_length, np_diff_length, hlen] at hj
    omega
  refine ⟨?_, hbounds, changedAux_sorted _ _, ?_⟩
  · intro i
    rw [hmem (i + 1)]
    constructor
    · rintro ⟨j, p, h1, h2, h3⟩
      rw [show j = i by omega] at h1
      obtain ⟨ha, hz⟩ := zip_getq_inv _ _ _ _ h1
      have hj := getq_some_lt_length _ _ _ h1
      rw [List.length_zip, np_diff_length, np_diff_length, hlen] at hj
      have hia : i + 1 < ages.length := by omega
      have hiz : i + 1 < zs.length := by omega
      rw [np_diff_getq ages i hia] at ha
      rw [np_diff_getq zs i hiz] at hz
      refine ⟨hia, ?_⟩
      rw [boundaryB, Bool.or_eq_true, decide_eq_true_eq, decide_eq_true_eq] at h2
      rcases h2 with h2 | h2
      · left
        rw [Option.some.inj ha]
        exact h2
      · right
        rw [Option.some.inj hz]
        exact h2
    · rintro ⟨hia, hor⟩
      have hiz : i + 1 < zs.length := by omega
      refine ⟨i, (ages.getD (i + 1) 0 - ages.getD i 0, zs.getD (i + 1) 0 - zs.getD i 0),
        zip_getq_some _ _ _ _ _ (np_diff_getq ages i hia) (np_diff_getq zs i hiz), ?_, rfl⟩
      rw [boundaryB, Bool.or_eq_true, decide_eq_true_eq, decide_eq_true_eq]
      exact hor
  · have hch : List.Chain (· ≤ ·) 0 (changedIdxs ages zs ++ [rows.length + 1]) := by
      cases h : changedIdxs ages zs with
      | nil => exact List.Chain.cons (Nat.zero_le _) List.Chain.nil
      | cons c ch =>
        rw [List.cons_append, List.chain_cons]
        have hsorted : List.Chain' (· < ·) (c :: ch) := by
          rw [← h]; exact changedAux_sorted _ _
        have hlt : ∀ k ∈ c :: ch, k < rows.length + 1 := by
          intro k hk
          have := (hbounds k (by rw [h]; exact hk)).2
          omega
        exact ⟨Nat.zero_le _, chain_le_of_sorted_lt ch c (rows.length + 1) hsorted hlt⟩
    have := slicesOf_join (changedIdxs ages zs ++ [rows.length + 1]) 0 rows hch
      (by rw [lastD_append_singleton]; omega)
    rw [segment_bounds]
    simpa using this

unseal Rat.sub Rat.add Rat.mul Rat.inv Rat.ofScientific in
/-- Witness for C7 at a concrete five-row table split after its third row. -/
theorem changed_boundaries_spec_witness :
    3 ∈ changedIdxs [6, 6, 6, 6.1, 6.1] [0.012, 0.012, 0.012, 0.012, 0.012] ∧
    (slicesOf [[(1 : ℚ)], [2], [3], [4], [5]]
      (segment_bounds 5 (changedIdxs [6, 6, 6, 6.1, 6.1] [0.012, 0.012, 0.012, 0.012, 0.012]))).flatten =
      [[(1 : ℚ)], [2], [3], [4], [5]] := by
  have h := changed_boundaries_spec [6, 6, 6, 6.1, 6.1] [0.012, 0.012, 0.012, 0.012, 0.012]
    [[(1 : ℚ)], [2], [3], [4], [5]] rfl rfl
  exact ⟨(h.1 2).2 ⟨by decide, Or.inl (by decide)⟩, h.2.2.2⟩

/-! ## Cross-check lemmas: counting content boundaries of grouped data. -/

theorem changedAux_length : ∀ (l : List (ℚ × ℚ)) (i : ℕ),
    (changedAux i l).length = l.countP (fun p => boundaryB p.1 p.2) := by
  intro l
  induction l with
  | nil => intro i; rfl
  | cons p rest ih =>
    intro i
    rw [List.countP_cons]
    by_cases hb : boundaryB p.1 p.2
    · rw [changedAux, if_pos hb, List.length_cons, ih (i + 1), if_pos hb]
    · rw [changedAux, if_neg hb, ih (i + 1), if_neg hb]
      omega

theorem diffs_zip_count : ∀ (ages zs : List ℚ), zs.length = ages.length →
    ((np_diff ages).zip (np_diff zs)).countP (fun p => boundaryB p.1 p.2) =
      nBounds (ages.zip zs) := by
  intro ages
  induction ages with
  | nil =>
    intro zs hlen
    rw [List.length_eq_zero.1 hlen]
    rfl
  | cons a as ih =>
    intro zs hlen
    match zs, hlen with
    | z :: zs1, hlen =>
      match as, zs1, hlen with
      | [], [], _ => rfl
      | [], _ :: _, hlen => simp at hlen
      | _ :: _, [], hlen => simp at hlen
      | a2 :: as2, z2 :: zs2, hlen =>
        have hlen2 : (z2 :: zs2).length = (a2 :: as2).length := by
          simpa using hlen
        have hrec := ih (z2 :: zs2) hlen2
        rw [np_diff, np_diff]
        simp only [List.zip_cons_cons] at hrec ⊢
        rw [List.countP_cons, hrec]
        have hn : nBounds ((a, z) :: (a2, z2) :: as2.zip zs2) =
            (if boundaryPairB (a, z) (a2, z2) then 1 else 0) +
              nBounds ((a2, z2) :: as2.zip zs2) := rfl
        have hpair : boundaryPairB (a, z) (a2, z2) = boundaryB (a2 - a) (z2 - z) := rfl
        have hproj : boundaryB (a2 - a, z2 - z).1 (a2 - a, z2 - z).2 =
            boundaryB (a2 - a) (z2 - z) := rfl
        rw [hn, hpair, hproj]
        omega

theorem nBounds_chain_zero : ∀ (g : List (ℚ × ℚ)),
    noInnerBoundaryB g = true → nBounds g = 0 := by
  intro g
  induction g with
  | nil => intro _; rfl
  | cons p tail ih =>
    intro h
    match tail, h with
    | [], _ => rfl
    | q :: r, h =>
      rw [noInnerBoundaryB, Bool.and_eq_true, Bool.not_eq_true'] at h
      rw [nBounds, h.1, ih h.2]
      simp

theorem lastD_cons_cons {α : Type _} (p p2 : α) (t2 : List α) (d : α) :
    lastD (p :: p2 :: t2) d = lastD (p2 :: t2) d := rfl

theorem nBounds_append_cons : ∀ (xs : List (ℚ × ℚ)) (q : ℚ × ℚ) (ys : List (ℚ × ℚ)),
    xs ≠ [] →
    nBounds (xs ++ q :: ys) =
      nBounds xs + (if boundaryPairB (lastD xs (0, 0)) q then 1 else 0) + nBounds (q :: ys) := by
  intro xs
  induction xs with
  | nil => intro q ys h; exact absurd rfl h
  | cons p tail ih =>
    intro q ys _
    match tail with
    | [] =>
      have h1 : nBounds ([p] ++ q :: ys) = (if boundaryPairB p q then 1 else 0) + nBounds (q :: ys) := rfl
      have h2 : lastD [p] ((0 : ℚ), (0 : ℚ)) = p := rfl
      have h3 : nBounds [p] = 0 := rfl
      rw [h1, h2, h3]
      omega
    | p2 :: t2 =>
      have hne : p2 :: t2 ≠ ([] : List (ℚ × ℚ)) := by simp
      have hstep : nBounds ((p :: p2 :: t2) ++ q :: ys) =
          (if boundaryPairB p p2 then 1 else 0) + nBounds ((p2 :: t2) ++ q :: ys) := rfl
      have hstep2 : nBounds (p :: p2 :: t2) =
          (if boundaryPairB p p2 then 1 else 0) + nBounds (p2 :: t2) := rfl
      rw [hstep, ih q ys hne, hstep2, lastD_cons_cons]
      omega

theorem nBounds_groups : ∀ (groups : List (List (ℚ × ℚ))),
    groups ≠ [] → (∀ g ∈ groups, g ≠ []) →
    (∀ g ∈ groups, noInnerBoundaryB g = true) →
    junctionsOkB groups = true →
    nBounds groups.flatten + 1 = groups.length := by
  intro groups
  induction groups with
  | nil => intro h; exact absurd rfl h
  | cons g gs ih =>
    intro _ hne hwithin hjunc
    match gs, hjunc with
    | [], _ =>
      rw [List.flatten_cons, List.flatten_nil, List.append_nil,
        nBounds_chain_zero g (hwithin g (by simp))]
      simp
    | g2 :: gs2, hjunc =>
      match g2, hne g2 (by simp) with
      | q :: g21, _ =>
        rw [junctionsOkB, Bool.and_eq_true] at hjunc
        have hgne : g ≠ ([] : List (ℚ × ℚ)) := hne g (by simp)
        have hflat : ((q :: g21) :: gs2).flatten = q :: (g21 ++ gs2.flatten) := by
          rw [List.flatten_cons]; rfl
        have hihyp := ih (by simp)
          (fun x hx => hne x (by simp [hx]))
          (fun x hx => hwithin x (by simp [hx]))
          hjunc.2
        rw [List.flatten_cons, hflat, nBounds_append_cons g q (g21 ++ gs2.flatten) hgne]
        rw [nBounds_chain_zero g (hwithin g (by simp))]
        have hhead : (q :: g21).headD ((0 : ℚ), (0 : ℚ)) = q := rfl
        rw [hhead] at hjunc
        have hbit : (if boundaryPairB (lastD g (0, 0)) q = true then 1 else 0) = 1 :=
          if_pos hjunc.1
        rw [hbit]
        rw [hflat] at hihyp
        simp only [List.length_cons] at hihyp ⊢
        omega

theorem changedIdxs_length_wf (ages zs : List ℚ) (k : ℕ)
    (hlen : zs.length = ages.length) (hk : k ≠ 0)
    (hwf : WellFormedSplit ages zs k) :
    (changedIdxs ages zs).length + 1 = k := by
  obtain ⟨groups, hglen, hgne, hjoin, hwithin, hjunc⟩ := hwf
  have hne : groups ≠ [] := by
    intro h
    rw [h] at hglen
    exact hk hglen.symm
  rw [changedIdxs, changedAux_length, diffs_zip_count ages zs hlen, ← hjoin,
    nBounds_groups groups hne hgne hwithin hjunc, hglen]

theorem prescan_ok_blocks_ne (lines : List String) (d : ℕ) (pres : PrescanResult)
    (h : prescan_table lines d = .ok pres) : pres.blocks ≠ [] := by
  unfold prescan_table at h
  split at h
  · exact Except.noConfusion h
  next st heq =>
    split at h
    · exact Except.noConfusion h
    next hempty =>
      intro hnil
      injection h with h
      have hb : (closeSeg st (lines.length - 1)).blocks = pres.blocks :=
        congrArg PrescanResult.blocks h
      rw [hnil] at hb
      exact hempty (by rw [hb]; rfl)

theorem column_ok_length (dt : List (String × NpType)) (data : List (List ℚ))
    (name : String) (c : List ℚ) (h : column dt data name = .ok c) :
    c.length = data.length := by
  unfold column at h
  split at h
  · injection h with h
    rw [← h, List.length_map]
  · exact Except.noConfusion h

theorem readPrep_ok_parts (lines : List String) (pres : PrescanResult)
    (dt : List (String × NpType)) (data : List (List ℚ)) (ages zs : List ℚ)
    (h : readPrep lines = .ok (pres, dt, data, ages, zs)) :
    prescan_table lines 2 = .ok pres ∧
    genfromtxt lines dt = .ok data ∧
    column dt data "logageyr" = .ok ages ∧
    column dt data "Z" = .ok zs := by
  unfold readPrep at h
  split at h
  · exact Except.noConfusion h
  next pres2 hpres =>
    split at h
    · exact Except.noConfusion h
    next b0 hb0 =>
      split at h
      · exact Except.noConfusion h
      next lastHeader hlast =>
        split at h
        · exact Except.noConfusion h
        next data2 hdata =>
          split at h
          · exact Except.noConfusion h
          next ages2 hages =>
            split at h
            · exact Except.noConfusion h
            next zs2 hzs =>
              injection h with h
              injection h with h1 h
              injection h with h2 h
              injection h with h3 h
              injection h with h4 h5
              subst h1; subst h2; subst h3; subst h4; subst h5
              exact ⟨hpres, hdata, hages, hzs⟩

/-- C1: the cross-check of `IsochroneSet._read`. For every input whose
bulk-loaded (age, metallicity) content is well-formed with respect to the
prescanned structural segmentation (`WellFormedSplit` with the prescanned
block count), the number of content-detected boundaries plus one equals
the prescanned block count; and whenever the two counts disagree, the
`assert` fires — the parse fails with `AssertionError` and no isochrones
are produced. -/
theorem segment_count_crosscheck :
    (∀ (lines : List String) (pres : PrescanResult) (dt : List (String × NpType))
        (data : List (List ℚ)) (ages zs : List ℚ),
        readPrep lines = .ok (pres, dt, data, ages, zs) →
        WellFormedSplit ages zs pres.blocks.length →
        (changedIdxs ages zs).length + 1 = pres.blocks.length) ∧
    (∀ (lines : List String) (pres : PrescanResult) (dt : List (String × NpType))
        (data : List (List ℚ)) (ages zs : List ℚ),
        readPrep lines = .ok (pres, dt, data, ages, zs) →
        (changedIdxs ages zs).length + 1 ≠ pres.blocks.length →
        isocSet_read lines = .error .assertionError) := by
  constructor
  · intro lines pres dt data ages zs h hwf
    obtain ⟨hpres, hdata, hages, hzs⟩ := readPrep_ok_parts lines pres dt data ages zs h
    have hlen : zs.length = ages.length := by
      rw [column_ok_length dt data _ zs hzs, column_ok_length dt data _ ages hages]
    have hk : pres.blocks.length ≠ 0 := by
      intro h0
      exact prescan_ok_blocks_ne lines 2 pres hpres (List.length_eq_zero.1 h0)
    exact changedIdxs_length_wf ages zs pres.blocks.length hlen hk hwf
  · intro lines pres dt data ages zs h hne
    unfold isocSet_read
    simp only [h]
    rw [if_neg hne]

unseal Rat.mul Rat.inv Rat.add Rat.sub Rat.ofScientific in
/-- Witness for C1: on the two-segment example file the counts agree (the
well-formedness split into two groups is exhibited concretely), and on the
file whose second structural segment repeats the first segment's age and
metallicity the parse aborts with `AssertionError`. -/
theorem segment_count_crosscheck_witness :
    (∃ pres dt data ages zs,
        readPrep exampleLines = .ok (pres, dt, data, ages, zs) ∧
        WellFormedSplit ages zs pres.blocks.length ∧
        (changedIdxs ages zs).length + 1 = pres.blocks.length) ∧
    isocSet_read mismatchLines = .error .assertionError := by
  refine ⟨⟨_, _, _, _, _, rfl, ?_, ?_⟩, ?_⟩
  · exact ⟨[[(6, 0.012), (6, 0.012), (6, 0.012)], [(6.1, 0.012), (6.1, 0.012)]],
      by decide, by decide, by decide, by decide, by decide⟩
  · exact segment_count_crosscheck.1 exampleLines _ _ _ _ _ rfl
      ⟨[[(6, 0.012), (6, 0.012), (6, 0.012)], [(6.1, 0.012), (6.1, 0.012)]],
        by decide, by decide, by decide, by decide, by decide⟩
  · exact segment_count_crosscheck.2 mismatchLines _ _ _ _ _ rfl (by decide)

/-! ## Except bind reductions. -/

theorem exbind_ok {α β : Type _} (a : α) (f : α → Except PyErr β) :
    (Except.ok a >>= f) = f a := rfl

theorem exbind_err {α β : Type _} (e : PyErr) (f : α → Except PyErr β) :
    ((Except.error e : Except PyErr α) >>= f) = .error e := rfl

/-! ## Iterator lemmas and the iteration claim. -/

theorem isocSetWalk_spec : ∀ (k i : ℕ) (l : List PTable), i + k ≤ l.length →
    isocSetWalk ⟨l, i⟩ k = ((l.drop i).take k, ⟨l, i + k⟩) := by
  intro k
  induction k with
  | zero => intro i l _; simp [isocSetWalk]
  | succ k ih =>
    intro i l hik
    have hi : i < l.length := by omega
    have hv : l.get? i = some (l.get ⟨i, hi⟩) := List.get?_eq_get hi
    have hnext : isocSetNext ⟨l, i⟩ = (.ok (l.get ⟨i, hi⟩), ⟨l, i + 1⟩) := by
      simp only [isocSetNext, hv]
    rw [isocSetWalk, hnext]
    simp only [ih (i + 1) l (by omega)]
    have hdrop : l.drop i = l.get ⟨i, hi⟩ :: l.drop (i + 1) := by
      rw [List.drop_eq_getElem_cons hi]
      rfl
    rw [hdrop, List.take_succ_cons]
    have harith : i + 1 + k = i + (k + 1) := by omega
    rw [harith]

/-- C9: sequential iteration yields the isochrones in order (a full walk
from cursor `0` returns the whole list); calling `next` with the cursor at
or past the end raises `StopIteration` and resets the cursor to `0`; and a
subsequent full walk therefore yields the whole list again instead of
remaining exhausted. -/
theorem iteration_restartable (l : List PTable) :
    (isocSetWalk ⟨l, 0⟩ l.length = (l, ⟨l, l.length⟩)) ∧
    (∀ i, l.length ≤ i → isocSetNext ⟨l, i⟩ = (.error .stopIteration, ⟨l, 0⟩)) ∧
    (isocSetWalk (isocSetNext ⟨l, l.length⟩).2 l.length = (l, ⟨l, l.length⟩)) := by
  have hwalk : isocSetWalk ⟨l, 0⟩ l.length = (l, ⟨l, l.length⟩) := by
    have := isocSetWalk_spec l.length 0 l (by omega)
    simpa using this
  have hstop : ∀ i, l.length ≤ i → isocSetNext ⟨l, i⟩ = (.error .stopIteration, ⟨l, 0⟩) := by
    intro i hi
    have hv : l.get? i = none := List.get?_eq_none.2 hi
    simp only [isocSetNext, hv]
  refine ⟨hwalk, hstop, ?_⟩
  rw [hstop l.length (le_refl _)]
  exact hwalk

/-- Witness for C9 on a two-isochrone set: the walk yields both tables in
order, and `next` at the end stops and resets the cursor. -/
theorem iteration_restartable_witness :
    isocSetWalk ⟨[tLw, tRw], 0⟩ 2 = ([tLw, tRw], ⟨[tLw, tRw], 2⟩) ∧
    isocSetNext ⟨[tLw, tRw], 2⟩ = (.error .stopIteration, ⟨[tLw, tRw], 0⟩) :=
  ⟨(iteration_restartable [tLw, tRw]).1,
   (iteration_restartable [tLw, tRw]).2.1 2 (by decide)⟩

/-! ## Join-set loop lemmas and the frame claim. -/

theorem joinSetsGo_spec (rb lb : Option (List String)) :
    ∀ (pairs : List (PTable × PTable)) (i : ℕ) (acc out : List PTable),
    i + pairs.length ≤ acc.length →
    joinSetsGo rb lb i acc pairs = .ok out →
    out.length = acc.length ∧
    (∀ j, (j < i ∨ i + pairs.length ≤ j) → out.get? j = acc.get? j) ∧
    (∀ j p, pairs.get? j = some p →
        ∃ t, join_isochrones p.1 p.2 rb lb = .ok t ∧ out.get? (i + j) = some t) := by
  intro pairs
  induction pairs with
  | nil =>
    intro i acc out _ h
    injection h with h
    subst h
    exact ⟨rfl, fun j _ => rfl, fun j p hp => by simp at hp⟩
  | cons p rest ih =>
    intro i acc out hlen h
    cases hj : join_isochrones p.1 p.2 rb lb with
    | error e =>
      rw [joinSetsGo, hj, exbind_err] at h
      exact Except.noConfusion h
    | ok t =>
      rw [joinSetsGo, hj, exbind_ok] at h
      have hset : (acc.set i t).length = acc.length := List.length_set acc i t
      have hlenc : (p :: rest).length = rest.length + 1 := rfl
      rw [hlenc] at hlen
      have hstep := ih (i + 1) (acc.set i t) out (by rw [hset]; omega) h
      refine ⟨hstep.1.trans hset, ?_, ?_⟩
      · intro j hj2
        rw [hlenc] at hj2
        have huntouched : out.get? j = (acc.set i t).get? j := by
          apply hstep.2.1 j
          rcases hj2 with hlt | hge
          · exact Or.inl (by omega)
          · exact Or.inr (by omega)
        have hij : i ≠ j := by
          rcases hj2 with hlt | hge
          · omega
          · omega
        rw [huntouched, getq_set_other acc i j t hij]
      · intro j q hq
        match j, hq with
        | 0, hq =>
          rw [List.get?_cons_zero] at hq
          injection hq with hq
          subst hq
          have houti : out.get? i = (acc.set i t).get? i := hstep.2.1 i (Or.inl (by omega))
          refine ⟨t, hj, ?_⟩
          rw [Nat.add_zero, houti, getq_set_self acc i t (by omega)]
        | j + 1, hq =>
          rw [List.get?_cons_succ] at hq
          obtain ⟨t2, ht2, hout⟩ := hstep.2.2 j q hq
          refine ⟨t2, ht2, ?_⟩
          have harith : i + (j + 1) = i + 1 + j := by omega
          rw [harith]
          exact hout

/-- C10: `join_isochrone_sets` never modifies the right-hand set (the
joiners work on copies of the right tables, so the final right state is
the input right state); it mutates only the left set's isochrone list,
replacing entry `i` by the join of the original `i`-th isochrones for
every `i` covered by the zip, leaving the rest unchanged; and the value it
returns is the (mutated) left set itself. -/
theorem join_sets_frame (left right : List PTable) (rb lb : Option (List String))
    (res : JoinSetsResult) (h : join_isochrone_sets left right rb lb = .ok res) :
    res.right_final = right ∧
    res.returned = res.left_final ∧
    res.left_final.length = left.length ∧
    (∀ j lt rt, left.get? j = some lt → right.get? j = some rt →
        ∃ t, join_isochrones lt rt rb lb = .ok t ∧ res.left_final.get? j = some t) ∧
    (∀ j, right.length ≤ j → res.left_final.get? j = left.get? j) := by
  cases hgo : joinSetsGo rb lb 0 left (left.zip right) with
  | error e =>
    rw [join_isochrone_sets, hgo, exbind_err] at h
    exact Except.noConfusion h
  | ok fin =>
    rw [join_isochrone_sets, hgo, exbind_ok] at h
    injection h with h
    subst h
    have hlen0 : 0 + (left.zip right).length ≤ left.length := by
      rw [List.length_zip]
      omega
    obtain ⟨hl, hu, hp⟩ := joinSetsGo_spec rb lb (left.zip right) 0 left fin hlen0 hgo
    refine ⟨rfl, rfl, hl, ?_, ?_⟩
    · intro j lt rt hlt hrt
      obtain ⟨t, ht, hout⟩ := hp j (lt, rt) (zip_getq_some _ _ _ _ _ hlt hrt)
      exact ⟨t, ht, by simpa using hout⟩
    · intro j hj
      apply hu j
      rw [List.length_zip]
      right
      omega

unseal Rat.mul Rat.inv Rat.add Rat.sub Rat.ofScientific in
/-- Witness for C10: a successful one-element join with explicit
`right_bands`; the right set comes back unchanged and the returned value
is the updated left list. -/
theorem join_sets_frame_witness :
    ∃ res, join_isochrone_sets [tLw] [tRw] (some ["U"]) none = .ok res ∧
      res.right_final = [tRw] ∧ res.returned = res.left_final :=
  ⟨_, rfl, (join_sets_frame [tLw] [tRw] (some ["U"]) none _ rfl).1,
    (join_sets_frame [tLw] [tRw] (some ["U"]) none _ rfl).2.1⟩

/-! ## The prescanner mismatch (C2). -/

/-- C2: what the `_prescan_table` present in `src/padova/basereader.py`
actually computes on the example file — the bare start-line indices of the
lines beginning with a comment marker and a tab — while the prescanner
contract that `IsochroneSet._read` unpacks (modelled from the spec as
`prescan_table`) yields the (global header lines, segments each carrying
exactly the declared 2 header lines, total line count) triple. -/
theorem prescan_legacy_eval :
    prescan_table_legacy exampleLines = [2, 7] ∧
    ∃ pres, prescan_table exampleLines 2 = .ok pres ∧
      pres.blocks.length = 2 ∧
      (∀ b ∈ pres.blocks, b.header_lines.length = 2) ∧
      pres.n_lines = exampleLines.length :=
  ⟨rfl, ⟨_, rfl, rfl, by decide, rfl⟩⟩

/-! ## The default-bands join crash (C3). -/

unseal Rat.mul Rat.inv Rat.add Rat.sub Rat.ofScientific in
/-- C3: joining a left set whose isochrone has filter columns `J, H, Ks`
with an equal-length right set whose isochrone has filter columns
`U, B, V` under default options does not produce the combined set — it
raises `TypeError`, because `join_isochrones` never replaces the default
`right_bands=None` (its docstring says right bands default to all) and
then evaluates `b in None` and `['M_ini'] + None`. -/
theorem join_default_bands_raises :
    join_isochrone_sets [tLeftJHK] [tRightUBV] none none = .error .typeError ∧
    filter_names tLeftJHK = ["J", "H", "Ks"] ∧
    filter_names tRightUBV = ["U", "B", "V"] :=
  ⟨rfl, rfl, rfl⟩

/-! ## The short-data-line behaviour of the bulk loader (C4). -/

unseal Rat.mul Rat.inv Rat.add Rat.sub Rat.ofScientific in
/-- Counterexample to C4: a data line with exactly one field fewer than
the schema (4 raw tab-fields against schema length 4, which needs the
blank leading field plus 4 values) does not parse with a padded blank —
the bulk load fails with `ValueError`. -/
theorem genfromtxt_short_line_cex :
    keptFields shortLine = some ["", "0.012", "6.0", "1.0"] ∧
    dtExample.length = 4 ∧
    genfromtxt shortLines dtExample = .error .valueError :=
  ⟨rfl, rfl, rfl⟩

/-- C4 (amended): every data line whose field count falls short of the
schema length plus the blank leading field — by one or by any other
amount — is fatal to the bulk load, which raises `ValueError`; no blank
padding occurs. -/
theorem short_line_fatal (lines : List String) (dt : List (String × NpType))
    (fs : List String) (hmem : fs ∈ lines.filterMap keptFields)
    (hshort : fs.length < dt.length + 1) :
    genfromtxt lines dt = .error .valueError := by
  unfold genfromtxt
  rw [if_pos (List.any_eq_true.2 ⟨fs, hmem, decide_eq_true hshort⟩)]

/-- Witness for C4 at the concrete short line. -/
theorem short_line_fatal_witness :
    genfromtxt shortLines dtExample = .error .valueError :=
  short_line_fatal shortLines dtExample ["", "0.012", "6.0", "1.0"]
    (by decide) (by decide)

/-! ## Metadata parsing (C5). -/

unseal Rat.mul Rat.inv Rat.add Rat.sub Rat.ofScientific in
/-- Counterexample to C5: on the spec's own example line
`" Z = 0.012  age = 3981000.0 "` the parser discards the first and last
whitespace-delimited tokens, desynchronising the key/value alternation,
and `float('age')` raises `ValueError` — it does not return the claimed
mapping. -/
theorem parse_meta_spec_line_cex :
    parse_meta " Z = 0.012  age = 3981000.0 " = .error .valueError := rfl

unseal Rat.mul Rat.inv Rat.add Rat.sub Rat.ofScientific in
/-- C5 (amended): on a segment header line carrying the boilerplate first
and last tokens that the parser discards, such as
`"\tIsochrone  Z = 0.012  age = 3981000.0 yr"`, the parsed metadata is
exactly `Z = 0.012`, `age = 3981000.0`, both as parsed floats. -/
theorem parse_meta_boilerplate_line :
    parse_meta "\tIsochrone  Z = 0.012  age = 3981000.0 yr" =
      .ok [("Z", (0.012 : ℚ)), ("age", (3981000.0 : ℚ))] := rfl

/-! ## Column schema resolution (C6). -/

/-- Counterexample to C6: the resolver maps a column named `stage` to the
integer dtype (`np.int`), not to a string type. -/
theorem stage_dtype_cex :
    make_dtype (parse_colnames "Z\tlogageyr\tstage") =
      [("Z", NpType.npFloat), ("logageyr", NpType.npFloat), ("stage", NpType.npInt)] ∧
    NpType.npInt ≠ NpType.npStr :=
  ⟨rfl, by decide⟩

theorem make_dtype_fst : ∀ (names : List String), (make_dtype names).map Prod.fst = names := by
  intro names
  induction names with
  | nil => rfl
  | cons n ns ih =>
    rw [make_dtype] at ih ⊢
    rw [List.map_cons, List.map_cons, ih]
    congr 1
    split_ifs <;> rfl

/-- C6 (amended): the resolver preserves the header's column names in
order and maps `stage` and `pmode` to the integer dtype and every other
name to the floating-point dtype; no column is ever mapped to a string
type. -/
theorem stage_pmode_dtype (header : String) :
    ((make_dtype (parse_colnames header)).map Prod.fst = parse_colnames header) ∧
    (∀ p ∈ make_dtype (parse_colnames header),
      (p.2 = NpType.npInt ↔ (p.1 = "stage" ∨ p.1 = "pmode")) ∧
      (p.2 = NpType.npFloat ↔ (p.1 ≠ "stage" ∧ p.1 ≠ "pmode")) ∧
      p.2 ≠ NpType.npStr) := by
  refine ⟨make_dtype_fst _, ?_⟩
  intro p hp
  rw [make_dtype, List.mem_map] at hp
  obtain ⟨c, _, hfc⟩ := hp
  by_cases h1 : c = "stage"
  · rw [if_pos h1] at hfc
    rw [← hfc]
    subst h1
    decide
  · rw [if_neg h1] at hfc
    by_cases h2 : c = "pmode"
    · rw [if_pos h2] at hfc
      rw [← hfc]
      subst h2
      decide
    · rw [if_neg h2] at hfc
      rw [← hfc]
      simp [h1, h2]

/-- Witness for C6 applying the theorem at a concrete header with a
`stage` column. -/
theorem stage_pmode_dtype_witness :
    ("stage", NpType.npInt) ∈ make_dtype (parse_colnames "Z\tstage") ∧
    (NpType.npInt = NpType.npInt ↔ ("stage" = "stage" ∨ "stage" = "pmode")) :=
  ⟨by decide, ((stage_pmode_dtype "Z\tstage").2 ("stage", NpType.npInt) (by decide)).1⟩

/-! ## Join failure modes (C8). -/

theorem pyFilterIn_some (l : List String) (b : List String) :
    pyFilterIn l (some b) = .ok (l.filter (fun x => x ∈ b)) := by
  cases l <;> rfl

theorem remove_columns_cols_sub (t : PTable) (names : List String) :
    ∀ x ∈ (remove_columns t names).cols, x ∈ t.cols := by
  intro x hx
  exact List.mem_of_mem_filter hx

theorem astropy_join_left_no_left_key (tl tr : PTable) (key : String)
    (h : key ∉ tl.cols) : astropy_join_left tl tr key = .error .mergeError := by
  have hnone : tl.cols.findIdx? (fun c => c = key) = none := by
    apply findIdxq_eq_none
    intro x hx
    by_cases hxk : x = key
    · exact absurd (hxk ▸ hx) h
    · simp [hxk]
  unfold astropy_join_left
  rw [hnone]

/-- C8 (amended): (a) a set-length mismatch does not fail — the loop zips
the two isochrone lists, truncating to the shorter one, so joining any
left set with an empty right set succeeds and returns the left set
unchanged (no ShapeError exists in the code); (b) a right isochrone
missing the `M_ini` key makes the per-isochrone join fail with the table
library's `KeyError` (from `keep_columns`); (c) a left isochrone missing
`M_ini` makes it fail with the table library's merge error (from `join`),
not with a dedicated SchemaError. -/
theorem join_sets_mismatch_and_missing_key :
    (∀ (left : List PTable) (rb lb : Option (List String)),
        join_isochrone_sets left [] rb lb = .ok ⟨left, [], left⟩) ∧
    (∀ (l r : PTable) (rbl : List String) (lb : Option (List String)),
        "M_ini" ∉ r.cols → join_isochrones l r (some rbl) lb = .error .keyError) ∧
    (∀ (l r : PTable) (rbl : List String) (lb : Option (List String)),
        "M_ini" ∉ l.cols → ("M_ini" :: rbl).all (fun n => n ∈ r.cols) = true →
        join_isochrones l r (some rbl) lb = .error .mergeError) := by
  refine ⟨?_, ?_, ?_⟩
  · intro left rb lb
    rw [join_isochrone_sets, List.zip_nil_right, joinSetsGo, exbind_ok]
  · intro l r rbl lb hmem
    have hkc : keep_columns r ("M_ini" :: rbl) = .error .keyError := by
      rw [keep_columns, if_neg]
      intro hall
      rw [List.all_cons, Bool.and_eq_true] at hall
      exact hmem (of_decide_eq_true hall.1)
    simp only [join_isochrones, Option.isNone_some, Bool.false_eq_true, if_false,
      pyFilterIn_some, pyListConcat, exbind_ok, List.cons_append, List.nil_append,
      hkc, exbind_err]
  · intro l r rbl lb hmeml hall
    cases lb with
    | none =>
      simp only [join_isochrones, Option.isNone_some, Bool.false_eq_true, if_false,
        pyFilterIn_some, pyListConcat, exbind_ok, List.cons_append, List.nil_append,
        keep_columns, if_pos hall]
      apply astropy_join_left_no_left_key
      intro hmem2
      exact hmeml (remove_columns_cols_sub _ _ _ hmem2)
    | some lb2 =>
      simp only [join_isochrones, Option.isNone_some, Bool.false_eq_true, if_false,
        pyFilterIn_some, pyListConcat, exbind_ok, List.cons_append, List.nil_append,
        keep_columns, if_pos hall]
      apply astropy_join_left_no_left_key
      intro hmem2
      exact hmeml (remove_columns_cols_sub _ _ _
        (remove_columns_cols_sub _ _ _ hmem2))

/-- Counterexample to C8 as stated: the sets have different lengths (1
versus 0) yet the join returns successfully with the left set unchanged —
no ShapeError is raised. -/
theorem join_sets_length_mismatch_cex :
    ([tLw].length ≠ ([] : List PTable).length) ∧
    join_isochrone_sets [tLw] [] none none = .ok ⟨[tLw], [], [tLw]⟩ :=
  ⟨by decide, rfl⟩

/-- Witness for C8 at concrete inputs: the mismatched-length call
succeeds, and both missing-key failures occur. -/
theorem join_sets_mismatch_and_missing_key_witness :
    join_isochrone_sets [tRw] [] none none = .ok ⟨[tRw], [], [tRw]⟩ ∧
    join_isochrones tLw tNoKey (some []) none = .error .keyError ∧
    join_isochrones tNoKey tRw (some ["U"]) none = .error .mergeError :=
  ⟨join_sets_mismatch_and_missing_key.1 [tRw] none none,
   join_sets_mismatch_and_missing_key.2.1 tLw tNoKey [] none (by decide),
   join_sets_mismatch_and_missing_key.2.2 tNoKey tRw ["U"] none (by decide) (by decide)⟩

end Padova
